import Mathlib

/-!
Shallow embedding of the interval-map core of the `ip_geo` repository
(`src/src/lib.rs`): the `IpAddrEntry` range type, the `IpAddrMap` container
with its `insert` / `cleanup` / `search` operations, and the comparison
primitive `PartialOrd<A> for IpAddrEntry` that the binary search uses.

Rust machine details that the embedding makes explicit:
- the address type parameter `A: Ord + Copy` becomes a `LinearOrder`;
- the value type parameter `T: PartialEq` becomes a type with `DecidableEq`;
- `Vec<IpAddrEntry<A, T>>` becomes `List (IpAddrEntry A T)`;
- `Result<V, E>` becomes `Except E V`, `Option<V>` becomes `Option V`;
- `&mut self` methods become explicit state passing (`search` returns the
  possibly-cleaned map alongside the lookup result);
- `slice::binary_search_by` is embedded following the loop of
  `core::slice::binary_search_by` (the branchless window-narrowing loop:
  `base`/`size` window, no early exit, final comparison at `base`).
-/

variable {A T : Type}

/-- Embeds `IpAddrEntry<A, T>` (src/src/lib.rs, lines 210-215): an inclusive
range of addresses from `start` to `end` with an associated `value`. The Rust
field `end` is written `«end»` because `end` is a Lean keyword. -/
structure IpAddrEntry (A : Type) (T : Type) where
  start : A
  «end» : A
  value : T
deriving DecidableEq

instance [Inhabited A] [Inhabited T] : Inhabited (IpAddrEntry A T) :=
  ⟨⟨default, default, default⟩⟩

/-- Embeds `EmptyRangeError` (src/src/lib.rs, line 293): the error returned
when constructing an entry from an invalid (empty) range. -/
structure EmptyRangeError
deriving DecidableEq

/-- Embeds `IpAddrEntry::new` (src/src/lib.rs, lines 222-228): returns a
populated entry when `start <= end`, else fails with `EmptyRangeError`. -/
def IpAddrEntry.new [LinearOrder A] (start stop : A) (value : T) :
    Except EmptyRangeError (IpAddrEntry A T) :=
  if start ≤ stop then Except.ok ⟨start, stop, value⟩ else Except.error ⟨⟩

/-- Embeds `IpAddrEntry::unwrap` (src/src/lib.rs, lines 267-271): consumes the
entry, returning the tuple `(start, end, value)`. -/
def IpAddrEntry.unwrap (e : IpAddrEntry A T) : A × A × T :=
  (e.start, e.«end», e.value)

/-- Embeds `PartialEq<A> for IpAddrEntry` (src/src/lib.rs, lines 274-278):
`self.range().contains(other)`, i.e. `start <= k && k <= end` for the
inclusive range `start..=end`. -/
def IpAddrEntry.containsKey [LinearOrder A] (e : IpAddrEntry A T) (k : A) : Prop :=
  e.start ≤ k ∧ k ≤ e.«end»

instance [LinearOrder A] (e : IpAddrEntry A T) (k : A) :
    Decidable (e.containsKey k) :=
  inferInstanceAs (Decidable (e.start ≤ k ∧ k ≤ e.«end»))

/-- Embeds `PartialOrd<A> for IpAddrEntry::partial_cmp` (src/src/lib.rs,
lines 280-289). The guards are tested in the Rust `match` order:
`v > self.end` gives `Less`, then `v < self.start` gives `Greater`, then
`self == v` (range containment) gives `Equal`; the final arm is
`unreachable!()`, modelled as `none`. -/
def IpAddrEntry.cmpAddr [LinearOrder A] (e : IpAddrEntry A T) (k : A) :
    Option Ordering :=
  if e.«end» < k then some Ordering.lt
  else if k < e.start then some Ordering.gt
  else if e.containsKey k then some Ordering.eq
  else none

/-- The `unreachable!()` arm of `partial_cmp` can never be reached: in a total
order, if neither `end < k` nor `k < start` then `start <= k <= end`. -/
theorem IpAddrEntry.cmpAddr_isSome [LinearOrder A] (e : IpAddrEntry A T) (k : A) :
    (e.cmpAddr k).isSome := by
  unfold IpAddrEntry.cmpAddr
  split
  · rfl
  · split
    · rfl
    · rw [if_pos]
      · rfl
      · rename_i h1 h2
        exact ⟨le_of_not_lt h2, le_of_not_lt h1⟩

/-- Embeds the closure `|e| e.partial_cmp(&address).unwrap()` used by
`IpAddrMap::search` (src/src/lib.rs, line 88): the `unwrap` is justified by
`cmpAddr_isSome`, so no panic is ever reached. -/
def IpAddrEntry.cmpAddrUnwrap [LinearOrder A] (e : IpAddrEntry A T) (k : A) :
    Ordering :=
  (e.cmpAddr k).get (e.cmpAddr_isSome k)

/-- Embeds the window-narrowing loop of `core::slice::binary_search_by`:
`while size > 1 { let half = size / 2; let mid = base + half;
let cmp = f(&self[mid]); base = if cmp == Greater { mid - half } else { mid };
size -= half; }`, returning the final `base`. -/
def binarySearchLoop [Inhabited α] (f : α → Ordering) (xs : List α)
    (base size : Nat) : Nat :=
  if 1 < size then
    binarySearchLoop f xs
      (if f (xs.getD (base + size / 2) default) = Ordering.gt
        then base + size / 2 - size / 2
        else base + size / 2)
      (size - size / 2)
  else base
termination_by size
decreasing_by omega

/-- Embeds `core::slice::binary_search_by` on `xs`: an empty slice returns
`Err(0)`; otherwise the loop narrows to one candidate index `base` and the
final comparison decides `Ok(base)` (comparator `Equal`) or
`Err(base + (cmp == Less) as usize)`. -/
def binarySearchBy [Inhabited α] (f : α → Ordering) (xs : List α) :
    Except Nat Nat :=
  if xs.length = 0 then Except.error 0
  else
    match f (xs.getD (binarySearchLoop f xs 0 xs.length) default) with
    | Ordering.eq => Except.ok (binarySearchLoop f xs 0 xs.length)
    | Ordering.lt => Except.error (binarySearchLoop f xs 0 xs.length + 1)
    | Ordering.gt => Except.error (binarySearchLoop f xs 0 xs.length)

/-- Embeds `IpAddrMap<A, T>` (src/src/lib.rs, lines 53-57): the backing
vector of entries plus the `dirty` flag. -/
structure IpAddrMap (A : Type) (T : Type) where
  inner : List (IpAddrEntry A T)
  dirty : Bool
deriving DecidableEq

/-- Embeds `IpAddrMap::new` (src/src/lib.rs, lines 61-66): empty backing
vector, `dirty = false`. -/
def IpAddrMap.new : IpAddrMap A T :=
  ⟨[], false⟩

/-- Embeds `IpAddrMap::new_with_capacity` (src/src/lib.rs, lines 69-74): the
capacity hint only affects allocation, so the embedded state is the same as
`new`. -/
def IpAddrMap.newWithCapacity (_capacity : Nat) : IpAddrMap A T :=
  ⟨[], false⟩

/-- Embeds `IpAddrMap::insert` (src/src/lib.rs, lines 77-80): push the entry
onto the end of the backing vector and set `dirty = true`. -/
def IpAddrMap.insert (m : IpAddrMap A T) (e : IpAddrEntry A T) : IpAddrMap A T :=
  ⟨m.inner ++ [e], true⟩

/-- Helper for `dedupByEq`: scans the tail holding the most recently retained
element `prev`; an element equal to `prev` is dropped, an unequal element is
kept and becomes the new retained element. This is the retained-element
recursion of `Vec::dedup_by`. -/
def dedupKeep [DecidableEq α] (prev : α) : List α → List α
  | [] => []
  | x :: xs => if x = prev then dedupKeep prev xs else x :: dedupKeep x xs

/-- Embeds `self.inner.dedup_by(|a, b| a == b)` (src/src/lib.rs, line 110):
removes all but the first of consecutive equal elements, comparing each
element against the most recently retained one. -/
def dedupByEq [DecidableEq α] : List α → List α
  | [] => []
  | x :: xs => x :: dedupKeep x xs

/-- The sort key order of `sort_unstable_by_key(|e| (e.start, e.end))`
(src/src/lib.rs, line 111): lexicographic comparison of `(start, end)`. -/
def entryKeyLe [LinearOrder A] (a b : IpAddrEntry A T) : Prop :=
  a.start < b.start ∨ (a.start = b.start ∧ a.«end» ≤ b.«end»)

instance [LinearOrder A] (a b : IpAddrEntry A T) : Decidable (entryKeyLe a b) :=
  inferInstanceAs (Decidable (a.start < b.start ∨ (a.start = b.start ∧ a.«end» ≤ b.«end»)))

/-- Boolean form of `entryKeyLe`, used as the comparator handed to the sort. -/
def entryKeyLeB [LinearOrder A] (a b : IpAddrEntry A T) : Bool :=
  decide (entryKeyLe a b)

/-- Embeds `IpAddrMap::cleanup` (src/src/lib.rs, lines 105-115): early return
if not dirty; otherwise dedup consecutive equal entries FIRST (line 110), then
sort by the `(start, end)` key (line 111) — this order is the source's order —
then clear the dirty flag (`shrink_to_fit` has no observable effect on the
entries). The unstable sort is modelled by `List.mergeSort` with the same key
order. -/
def IpAddrMap.cleanup [LinearOrder A] [DecidableEq T] (m : IpAddrMap A T) :
    IpAddrMap A T :=
  if !m.dirty then m
  else ⟨(dedupByEq m.inner).mergeSort entryKeyLeB, false⟩

/-- Embeds `IpAddrMap::search` (src/src/lib.rs, lines 83-99): runs `cleanup`,
then binary-searches with the `partial_cmp(..).unwrap()` comparator; `Ok(i)`
yields `Some` of the value at index `i`, `Err(_)` yields `None`. The updated
map (the `&mut self` state after the call) is returned alongside. -/
def IpAddrMap.search [LinearOrder A] [DecidableEq T] [Inhabited A] [Inhabited T]
    (m : IpAddrMap A T) (k : A) : Option T × IpAddrMap A T :=
  match binarySearchBy (fun e => e.cmpAddrUnwrap k) m.cleanup.inner with
  | Except.ok i => (some ((m.cleanup.inner.getD i default).value), m.cleanup)
  | Except.error _ => (none, m.cleanup)

/-- Embeds `IpAddrMap::len` (src/src/lib.rs, lines 123-125). -/
def IpAddrMap.len (m : IpAddrMap A T) : Nat :=
  m.inner.length

/-- Embeds `IpAddrMap::is_empty` (src/src/lib.rs, lines 128-130). -/
def IpAddrMap.isEmpty (m : IpAddrMap A T) : Bool :=
  m.inner.isEmpty

/-- Modelled from the spec: the error type `ip_geo::Error` of the lookup
paths. The revision of the library crate that defines it is not under `src/`
(only its caller `src/server/src/main.rs`, lines 77-93, which matches on
`ip_geo::Error::NoValueFound` and on other variants, is). Per spec sections
4.2 and 7, the lookup error taxonomy distinguishes `NotFound`
(`NoValueFound`) from `DirtyMap`. -/
inductive LookupError where
  | noValueFound
  | dirtyMap
deriving DecidableEq

/-- Modelled from the spec: `IpAddrMap::try_search`, the unchecked read-only
lookup path. It is called from `src/server/src/main.rs` (line 90) and
`src/server/src/api.rs` (line 76) but its definition is not under `src/`.
Per spec section 4.2, it takes only shared access, returns a distinguished
`DirtyMap` error when the map has pending unfinalized inserts, and otherwise
performs the same binary search as `search`, with a miss reported as the
`NotFound`-class error. -/
def IpAddrMap.trySearch [LinearOrder A] [Inhabited A] [Inhabited T]
    (m : IpAddrMap A T) (k : A) : Except LookupError T :=
  if m.dirty then Except.error LookupError.dirtyMap
  else
    match binarySearchBy (fun e => e.cmpAddrUnwrap k) m.inner with
    | Except.ok i => Except.ok ((m.inner.getD i default).value)
    | Except.error _ => Except.error LookupError.noValueFound

/-- Extracting the `unwrap`ped comparator value from a known `cmpAddr` result. -/
theorem IpAddrEntry.cmpAddrUnwrap_eq_of [LinearOrder A] {e : IpAddrEntry A T}
    {k : A} {o : Ordering} (h : e.cmpAddr k = some o) : e.cmpAddrUnwrap k = o := by
  unfold IpAddrEntry.cmpAddrUnwrap
  exact Option.some.inj (by rw [Option.some_get, h])

/-- First guard of `partial_cmp`: a key strictly above the range compares `Less`. -/
theorem IpAddrEntry.cmpAddr_lt_of [LinearOrder A] {e : IpAddrEntry A T} {k : A}
    (h : e.«end» < k) : e.cmpAddr k = some Ordering.lt := by
  unfold IpAddrEntry.cmpAddr
  rw [if_pos h]

/-- Second guard of `partial_cmp`: a key strictly below the range (and not
above it) compares `Greater`. -/
theorem IpAddrEntry.cmpAddr_gt_of [LinearOrder A] {e : IpAddrEntry A T} {k : A}
    (h1 : ¬ e.«end» < k) (h2 : k < e.start) : e.cmpAddr k = some Ordering.gt := by
  unfold IpAddrEntry.cmpAddr
  rw [if_neg h1, if_pos h2]

/-- Third guard of `partial_cmp`: a contained key compares `Equal`. -/
theorem IpAddrEntry.cmpAddr_eq_of [LinearOrder A] {e : IpAddrEntry A T} {k : A}
    (h : e.containsKey k) : e.cmpAddr k = some Ordering.eq := by
  unfold IpAddrEntry.cmpAddr
  rw [if_neg (not_lt_of_le h.2), if_neg (not_lt_of_le h.1), if_pos h]

/-- The comparator answers `Equal` only on a contained key. -/
theorem IpAddrEntry.containsKey_of_cmpAddrUnwrap_eq [LinearOrder A]
    {e : IpAddrEntry A T} {k : A} (h : e.cmpAddrUnwrap k = Ordering.eq) :
    e.containsKey k := by
  by_cases h1 : e.«end» < k
  · rw [IpAddrEntry.cmpAddrUnwrap_eq_of (IpAddrEntry.cmpAddr_lt_of h1)] at h
    exact Ordering.noConfusion h
  by_cases h2 : k < e.start
  · rw [IpAddrEntry.cmpAddrUnwrap_eq_of (IpAddrEntry.cmpAddr_gt_of h1 h2)] at h
    exact Ordering.noConfusion h
  exact ⟨le_of_not_lt h2, le_of_not_lt h1⟩

/-- Correctness of the binary-search loop when the comparator is partitioned
around a unique `Equal` index `t` (`Less` strictly below it, `Greater`
strictly above it): any window containing `t` narrows exactly to `t`. -/
theorem binarySearchLoop_ok [Inhabited α] (f : α → Ordering) (xs : List α)
    (t : Nat)
    (He : f (xs.getD t default) = Ordering.eq)
    (H2 : ∀ j, j < t → f (xs.getD j default) = Ordering.lt)
    (H3 : ∀ j, t < j → j < xs.length → f (xs.getD j default) = Ordering.gt)
    (base size : Nat) (hbt : base ≤ t) (htw : t < base + size)
    (hlen : base + size ≤ xs.length) :
    binarySearchLoop f xs base size = t := by
  rw [binarySearchLoop]
  by_cases hs : 1 < size
  · rw [if_pos hs]
    rcases Nat.lt_trichotomy (base + size / 2) t with hc | hc | hc
    · rw [H2 _ hc, if_neg (by decide)]
      exact binarySearchLoop_ok f xs t He H2 H3 (base + size / 2) (size - size / 2)
        (by omega) (by omega) (by omega)
    · rw [hc, He, if_neg (by decide)]
      exact binarySearchLoop_ok f xs t He H2 H3 t (size - size / 2)
        (le_refl t) (by omega) (by omega)
    · rw [H3 _ hc (by omega), if_pos rfl]
      exact binarySearchLoop_ok f xs t He H2 H3 (base + size / 2 - size / 2)
        (size - size / 2) (by omega) (by omega) (by omega)
  · rw [if_neg hs]
    omega
termination_by size
decreasing_by all_goals omega

/-- The loop result is always a valid index of the list. -/
theorem binarySearchLoop_lt_length [Inhabited α] (f : α → Ordering)
    (xs : List α) (base size : Nat) (h1 : 1 ≤ size)
    (h2 : base + size ≤ xs.length) :
    binarySearchLoop f xs base size < xs.length := by
  rw [binarySearchLoop]
  by_cases hs : 1 < size
  · rw [if_pos hs]
    by_cases hg : f (xs.getD (base + size / 2) default) = Ordering.gt
    · rw [if_pos hg]
      exact binarySearchLoop_lt_length f xs _ _ (by omega) (by omega)
    · rw [if_neg hg]
      exact binarySearchLoop_lt_length f xs _ _ (by omega) (by omega)
  · rw [if_neg hs]
    omega
termination_by size
decreasing_by all_goals omega

/-- `binary_search_by` finds the unique index at which the partitioned
comparator answers `Equal`. -/
theorem binarySearchBy_found [Inhabited α] (f : α → Ordering) (xs : List α)
    (t : Nat) (Ht : t < xs.length)
    (He : f (xs.getD t default) = Ordering.eq)
    (H2 : ∀ j, j < t → f (xs.getD j default) = Ordering.lt)
    (H3 : ∀ j, t < j → j < xs.length → f (xs.getD j default) = Ordering.gt) :
    binarySearchBy f xs = Except.ok t := by
  unfold binarySearchBy
  rw [if_neg (by omega)]
  have hloop : binarySearchLoop f xs 0 xs.length = t :=
    binarySearchLoop_ok f xs t He H2 H3 0 xs.length (by omega) (by omega)
      (by omega)
  rw [hloop, He]

/-- `binary_search_by` reports a miss (an `Err`) when the comparator never
answers `Equal`. -/
theorem binarySearchBy_miss [Inhabited α] (f : α → Ordering) (xs : List α)
    (H : ∀ j, j < xs.length → f (xs.getD j default) ≠ Ordering.eq) :
    ∃ i, binarySearchBy f xs = Except.error i := by
  unfold binarySearchBy
  by_cases h0 : xs.length = 0
  · rw [if_pos h0]
    exact ⟨0, rfl⟩
  · rw [if_neg h0]
    have hlt : binarySearchLoop f xs 0 xs.length < xs.length :=
      binarySearchLoop_lt_length f xs 0 xs.length (by omega) (by omega)
    cases hcase : f (xs.getD (binarySearchLoop f xs 0 xs.length) default) with
    | lt => exact ⟨_, rfl⟩
    | eq => exact absurd hcase (H _ hlt)
    | gt => exact ⟨_, rfl⟩

/-- `cleanup` on a map that is not dirty is the identity (the early return at
src/src/lib.rs, lines 106-108). -/
theorem IpAddrMap.cleanup_not_dirty [LinearOrder A] [DecidableEq T]
    {m : IpAddrMap A T} (h : m.dirty = false) : m.cleanup = m := by
  unfold IpAddrMap.cleanup
  rw [h]
  rfl

/-- In-range `getD` is `getElem`. -/
theorem getD_eq_getElem_of_lt [Inhabited α] {xs : List α} {j : Nat}
    (hj : j < xs.length) : xs.getD j default = xs[j] := by
  rw [List.getD_eq_getElem?_getD, List.getElem?_eq_getElem hj]
  rfl

/-- Claim C1: for every finalized map (dirty flag clear, sequence sorted by
the `(start, end)` key) whose entries are pairwise disjoint (and well-formed,
`start <= end`, as `IpAddrEntry::new` guarantees for every entry it ever
constructs), for every entry `e` in the map and every key `k` with
`e.start <= k <= e.end`, `search k` returns `some e.value`. -/
theorem search_containment [LinearOrder A] [DecidableEq T] [Inhabited A]
    [Inhabited T] (m : IpAddrMap A T) (e : IpAddrEntry A T) (k : A)
    (hfin : m.dirty = false)
    (hsort : m.inner.Pairwise entryKeyLe)
    (hdisj : m.inner.Pairwise
      (fun a b => ∀ x : A, ¬(a.containsKey x ∧ b.containsKey x)))
    (hwf : ∀ e' ∈ m.inner, e'.start ≤ e'.«end»)
    (hmem : e ∈ m.inner) (hk : e.containsKey k) :
    (m.search k).1 = some e.value := by
  obtain ⟨t, ht, hte⟩ := List.mem_iff_getElem.mp hmem
  have hsort' := List.pairwise_iff_getElem.mp hsort
  have hdisj' := List.pairwise_iff_getElem.mp hdisj
  have He : (m.inner.getD t default).cmpAddrUnwrap k = Ordering.eq := by
    rw [getD_eq_getElem_of_lt ht, hte]
    exact IpAddrEntry.cmpAddrUnwrap_eq_of (IpAddrEntry.cmpAddr_eq_of hk)
  have H2 : ∀ j, j < t →
      (m.inner.getD j default).cmpAddrUnwrap k = Ordering.lt := by
    intro j hj
    have hjlen : j < m.inner.length := lt_trans hj ht
    rw [getD_eq_getElem_of_lt hjlen]
    have hlex : entryKeyLe m.inner[j] e := by
      have h := hsort' j t hjlen ht hj
      rwa [hte] at h
    have hdis := hdisj' j t hjlen ht hj
    rw [hte] at hdis
    have hstart_le : m.inner[j].start ≤ e.start := by
      rcases hlex with h | ⟨h, _⟩
      · exact le_of_lt h
      · exact le_of_eq h
    have hend : m.inner[j].«end» < k := by
      by_contra hcon
      exact hdis k ⟨⟨le_trans hstart_le hk.1, le_of_not_lt hcon⟩, hk⟩
    exact IpAddrEntry.cmpAddrUnwrap_eq_of (IpAddrEntry.cmpAddr_lt_of hend)
  have H3 : ∀ j, t < j → j < m.inner.length →
      (m.inner.getD j default).cmpAddrUnwrap k = Ordering.gt := by
    intro j hjt hjlen
    rw [getD_eq_getElem_of_lt hjlen]
    have hlex : entryKeyLe e m.inner[j] := by
      have h := hsort' t j ht hjlen hjt
      rwa [hte] at h
    have hdis := hdisj' t j ht hjlen hjt
    rw [hte] at hdis
    have hstart_le : e.start ≤ m.inner[j].start := by
      rcases hlex with h | ⟨h, _⟩
      · exact le_of_lt h
      · exact le_of_eq h
    have hwfj : m.inner[j].start ≤ m.inner[j].«end» :=
      hwf _ (List.getElem_mem hjlen)
    have hstart : k < m.inner[j].start := by
      by_contra hcon
      exact hdis m.inner[j].start
        ⟨⟨hstart_le, le_trans (le_of_not_lt hcon) hk.2⟩, le_refl _, hwfj⟩
    have hne : ¬ m.inner[j].«end» < k := fun hcon =>
      absurd (lt_of_lt_of_le (lt_trans hcon hstart) hwfj) (lt_irrefl _)
    exact IpAddrEntry.cmpAddrUnwrap_eq_of (IpAddrEntry.cmpAddr_gt_of hne hstart)
  have hfound : binarySearchBy (fun e' => e'.cmpAddrUnwrap k) m.inner
      = Except.ok t :=
    binarySearchBy_found _ m.inner t ht He H2 H3
  unfold IpAddrMap.search
  rw [IpAddrMap.cleanup_not_dirty hfin, hfound]
  show some (m.inner.getD t default).value = some e.value
  rw [getD_eq_getElem_of_lt ht, hte]

/-- Witness for C1 at a concrete finalized two-entry map. -/
theorem search_containment_witness :
    ((⟨[⟨0, 2, 7⟩, ⟨4, 6, 8⟩], false⟩ : IpAddrMap ℕ ℕ).search 1).1 = some 7 :=
  search_containment _ ⟨0, 2, 7⟩ 1 rfl (by decide)
    (by
      refine List.Pairwise.cons ?_ (List.pairwise_singleton _ _)
      intro b hb x hx
      rw [List.mem_singleton] at hb
      subst hb
      obtain ⟨⟨_, h2⟩, h3, _⟩ := hx
      exact absurd (le_trans h3 h2) (by decide))
    (by decide) (by decide) (by decide)

/-- Claim C2: for every finalized map and every key `k` contained in no entry
of the map, `search k` returns `none`, and the map state (its entry sequence
and dirty flag) is unchanged by the call. -/
theorem search_miss [LinearOrder A] [DecidableEq T] [Inhabited A] [Inhabited T]
    (m : IpAddrMap A T) (k : A)
    (hfin : m.dirty = false)
    (hmiss : ∀ e ∈ m.inner, ¬ e.containsKey k) :
    (m.search k).1 = none ∧ (m.search k).2 = m := by
  have H : ∀ j, j < m.inner.length →
      (m.inner.getD j default).cmpAddrUnwrap k ≠ Ordering.eq := by
    intro j hj hcon
    have hc : (m.inner.getD j default).containsKey k :=
      IpAddrEntry.containsKey_of_cmpAddrUnwrap_eq hcon
    rw [getD_eq_getElem_of_lt hj] at hc
    exact hmiss _ (List.getElem_mem hj) hc
  obtain ⟨i, hi⟩ := binarySearchBy_miss (fun e' => e'.cmpAddrUnwrap k) m.inner H
  unfold IpAddrMap.search
  rw [IpAddrMap.cleanup_not_dirty hfin, hi]
  exact ⟨rfl, rfl⟩

/-- Witness for C2 at a concrete finalized map and an uncovered key. -/
theorem search_miss_witness :
    ((⟨[⟨0, 2, 7⟩, ⟨4, 6, 8⟩], false⟩ : IpAddrMap ℕ ℕ).search 3).1 = none ∧
    ((⟨[⟨0, 2, 7⟩, ⟨4, 6, 8⟩], false⟩ : IpAddrMap ℕ ℕ).search 3).2
      = ⟨[⟨0, 2, 7⟩, ⟨4, 6, 8⟩], false⟩ :=
  search_miss _ 3 rfl (by decide)

/-- Claim C4: for every entry with `start <= end` and every bare key `k`,
the three-way comparison against `k` is total: exactly one of
less (`k > end`), greater (`k < start`) or equal (`start <= k <= end`)
holds, `partial_cmp` returns `some` of the corresponding ordering, and its
`unreachable!()` branch (the `none` result) never fires. -/
theorem cmpAddr_total [LinearOrder A] (e : IpAddrEntry A T) (k : A)
    (hwf : e.start ≤ e.«end») :
    (e.«end» < k ∧ ¬ k < e.start ∧ ¬ e.containsKey k ∧
      e.cmpAddr k = some Ordering.lt) ∨
    (¬ e.«end» < k ∧ k < e.start ∧ ¬ e.containsKey k ∧
      e.cmpAddr k = some Ordering.gt) ∨
    (¬ e.«end» < k ∧ ¬ k < e.start ∧ e.containsKey k ∧
      e.cmpAddr k = some Ordering.eq) := by
  by_cases h1 : e.«end» < k
  · refine Or.inl ⟨h1, lt_asymm (lt_of_le_of_lt hwf h1), ?_,
      IpAddrEntry.cmpAddr_lt_of h1⟩
    intro hc
    exact absurd h1 (not_lt_of_le hc.2)
  · by_cases h2 : k < e.start
    · refine Or.inr (Or.inl ⟨h1, h2, ?_, IpAddrEntry.cmpAddr_gt_of h1 h2⟩)
      intro hc
      exact absurd h2 (not_lt_of_le hc.1)
    · have hc : e.containsKey k := ⟨le_of_not_lt h2, le_of_not_lt h1⟩
      exact Or.inr (Or.inr ⟨h1, h2, hc, IpAddrEntry.cmpAddr_eq_of hc⟩)

/-- Witness for C4 at the concrete entry `(0, 2, 7)` and key `1`. -/
theorem cmpAddr_total_witness :
    ((⟨0, 2, 7⟩ : IpAddrEntry ℕ ℕ).«end» < 1 ∧ ¬ (1 : ℕ) < (⟨0, 2, 7⟩ : IpAddrEntry ℕ ℕ).start ∧
      ¬ (⟨0, 2, 7⟩ : IpAddrEntry ℕ ℕ).containsKey 1 ∧
      (⟨0, 2, 7⟩ : IpAddrEntry ℕ ℕ).cmpAddr 1 = some Ordering.lt) ∨
    (¬ (⟨0, 2, 7⟩ : IpAddrEntry ℕ ℕ).«end» < 1 ∧ (1 : ℕ) < (⟨0, 2, 7⟩ : IpAddrEntry ℕ ℕ).start ∧
      ¬ (⟨0, 2, 7⟩ : IpAddrEntry ℕ ℕ).containsKey 1 ∧
      (⟨0, 2, 7⟩ : IpAddrEntry ℕ ℕ).cmpAddr 1 = some Ordering.gt) ∨
    (¬ (⟨0, 2, 7⟩ : IpAddrEntry ℕ ℕ).«end» < 1 ∧ ¬ (1 : ℕ) < (⟨0, 2, 7⟩ : IpAddrEntry ℕ ℕ).start ∧
      (⟨0, 2, 7⟩ : IpAddrEntry ℕ ℕ).containsKey 1 ∧
      (⟨0, 2, 7⟩ : IpAddrEntry ℕ ℕ).cmpAddr 1 = some Ordering.eq) :=
  cmpAddr_total ⟨0, 2, 7⟩ 1 (by decide)

/-- Claim C5: `cleanup` is idempotent: a second call leaves the same entry
sequence and dirty flag as one call, and `cleanup` on a map that is not
dirty changes nothing (the early return at src/src/lib.rs, lines 106-108). -/
theorem cleanup_idempotent [LinearOrder A] [DecidableEq T] (m : IpAddrMap A T) :
    m.cleanup.cleanup = m.cleanup ∧ (m.dirty = false → m.cleanup = m) := by
  constructor
  · cases hd : m.dirty with
    | false =>
      rw [IpAddrMap.cleanup_not_dirty hd, IpAddrMap.cleanup_not_dirty hd]
    | true =>
      have hcd : m.cleanup.dirty = false := by
        unfold IpAddrMap.cleanup
        rw [hd]
        rfl
      exact IpAddrMap.cleanup_not_dirty hcd
  · intro hf
    exact IpAddrMap.cleanup_not_dirty hf

/-- Witness for C5 at a concrete dirty one-entry map. -/
theorem cleanup_idempotent_witness :
    (⟨[⟨0, 0, 0⟩], true⟩ : IpAddrMap ℕ ℕ).cleanup.cleanup
      = (⟨[⟨0, 0, 0⟩], true⟩ : IpAddrMap ℕ ℕ).cleanup ∧
    ((⟨[⟨0, 0, 0⟩], true⟩ : IpAddrMap ℕ ℕ).dirty = false →
      (⟨[⟨0, 0, 0⟩], true⟩ : IpAddrMap ℕ ℕ).cleanup
        = ⟨[⟨0, 0, 0⟩], true⟩) :=
  cleanup_idempotent _

/-- The `(start, end)` key order is transitive. -/
theorem entryKeyLe_trans [LinearOrder A] (a b c : IpAddrEntry A T)
    (hab : entryKeyLe a b) (hbc : entryKeyLe b c) : entryKeyLe a c := by
  rcases hab with h1 | ⟨h1, h1'⟩ <;> rcases hbc with h2 | ⟨h2, h2'⟩
  · exact Or.inl (lt_trans h1 h2)
  · exact Or.inl (lt_of_lt_of_le h1 (le_of_eq h2))
  · exact Or.inl (lt_of_le_of_lt (le_of_eq h1) h2)
  · exact Or.inr ⟨h1.trans h2, le_trans h1' h2'⟩

/-- The `(start, end)` key order is total. -/
theorem entryKeyLe_total [LinearOrder A] (a b : IpAddrEntry A T) :
    entryKeyLe a b ∨ entryKeyLe b a := by
  rcases lt_trichotomy a.start b.start with h | h | h
  · exact Or.inl (Or.inl h)
  · rcases le_total a.«end» b.«end» with h' | h'
    · exact Or.inl (Or.inr ⟨h, h'⟩)
    · exact Or.inr (Or.inr ⟨h.symm, h'⟩)
  · exact Or.inr (Or.inl h)

/-- Claim C6: a map finalized by `cleanup` has its entry sequence sorted:
every adjacent pair `(a, b)` satisfies `(a.start, a.end) <= (b.start, b.end)`
lexicographically. (A never-dirtied map is empty, which is trivially
sorted, so `cleanup` of a dirty map is the one interesting case.) -/
theorem cleanup_sorted [LinearOrder A] [DecidableEq T] (m : IpAddrMap A T)
    (hd : m.dirty = true) :
    List.Chain' entryKeyLe m.cleanup.inner := by
  have hinner : m.cleanup.inner = (dedupByEq m.inner).mergeSort entryKeyLeB := by
    unfold IpAddrMap.cleanup
    rw [hd]
    rfl
  rw [hinner]
  have htrans : ∀ a b c : IpAddrEntry A T,
      entryKeyLeB a b → entryKeyLeB b c → entryKeyLeB a c := by
    intro a b c h1 h2
    exact decide_eq_true
      (entryKeyLe_trans a b c (of_decide_eq_true h1) (of_decide_eq_true h2))
  have htotal : ∀ a b : IpAddrEntry A T, entryKeyLeB a b || entryKeyLeB b a := by
    intro a b
    rw [Bool.or_eq_true]
    rcases entryKeyLe_total a b with h | h
    · exact Or.inl (decide_eq_true h)
    · exact Or.inr (decide_eq_true h)
  have hp := List.sorted_mergeSort htrans htotal (dedupByEq m.inner)
  exact (hp.imp fun h => of_decide_eq_true h).chain'

/-- Witness for C6 at a concrete dirty two-entry map. -/
theorem cleanup_sorted_witness :
    List.Chain' entryKeyLe
      (⟨[⟨4, 6, 8⟩, ⟨0, 2, 7⟩], true⟩ : IpAddrMap ℕ ℕ).cleanup.inner :=
  cleanup_sorted _ rfl

/-- Claim C7: `IpAddrEntry::new` returns `Ok` of the populated entry when
`start <= end`, fails with `EmptyRangeError` when `start > end`, and always
succeeds on a single-address range (`start == end`); it has no other
effect (it is a pure function in the embedding). -/
theorem new_entry_spec [LinearOrder A] (s e : A) (v : T) :
    (s ≤ e → IpAddrEntry.new s e v = Except.ok ⟨s, e, v⟩) ∧
    (e < s → IpAddrEntry.new s e v = Except.error ⟨⟩) ∧
    IpAddrEntry.new s s v = Except.ok ⟨s, s, v⟩ := by
  refine ⟨fun h => ?_, fun h => ?_, ?_⟩
  · unfold IpAddrEntry.new
    rw [if_pos h]
  · unfold IpAddrEntry.new
    rw [if_neg (not_le_of_lt h)]
  · unfold IpAddrEntry.new
    rw [if_pos (le_refl s)]

/-- Witness for C7 at concrete bounds. -/
theorem new_entry_spec_witness :
    ((0 : ℕ) ≤ 1 → IpAddrEntry.new 0 1 (5 : ℕ) = Except.ok ⟨0, 1, 5⟩) ∧
    ((1 : ℕ) < 0 → IpAddrEntry.new 0 1 (5 : ℕ) = Except.error ⟨⟩) ∧
    IpAddrEntry.new 0 0 (5 : ℕ) = Except.ok ⟨0, 0, 5⟩ :=
  new_entry_spec 0 1 5

/-- `cleanup` on a dirty map deduplicates adjacent entries, sorts and clears
the flag (the else path of src/src/lib.rs, lines 110-114). -/
theorem IpAddrMap.cleanup_dirty [LinearOrder A] [DecidableEq T]
    {m : IpAddrMap A T} (h : m.dirty = true) :
    m.cleanup = ⟨(dedupByEq m.inner).mergeSort entryKeyLeB, false⟩ := by
  unfold IpAddrMap.cleanup
  rw [h]
  rfl

/-- Claim C8: inserting the identical entry `(s, e, v)` (with `s <= e`) twice
into a fresh map and finalizing yields a map of length 1, and `search` still
returns the value for every key `k` with `s <= k <= e`. -/
theorem duplicate_collapse [LinearOrder A] [DecidableEq T] [Inhabited A]
    [Inhabited T] (s e : A) (v : T) (hse : s ≤ e) (k : A) (hk1 : s ≤ k)
    (hk2 : k ≤ e) :
    ((IpAddrMap.new.insert ⟨s, e, v⟩).insert ⟨s, e, v⟩).cleanup.len = 1 ∧
    ((((IpAddrMap.new.insert ⟨s, e, v⟩).insert ⟨s, e, v⟩).cleanup.search k).1
      = some v) := by
  have hins : (IpAddrMap.new.insert ⟨s, e, v⟩).insert ⟨s, e, v⟩
      = (⟨[⟨s, e, v⟩, ⟨s, e, v⟩], true⟩ : IpAddrMap A T) := rfl
  have hded : dedupByEq [(⟨s, e, v⟩ : IpAddrEntry A T), ⟨s, e, v⟩]
      = [⟨s, e, v⟩] := by
    simp [dedupByEq, dedupKeep]
  have hcl : ((IpAddrMap.new.insert ⟨s, e, v⟩).insert ⟨s, e, v⟩
      : IpAddrMap A T).cleanup = ⟨[⟨s, e, v⟩], false⟩ := by
    rw [hins, IpAddrMap.cleanup_dirty rfl]
    rw [show (⟨[⟨s, e, v⟩, ⟨s, e, v⟩], true⟩ : IpAddrMap A T).inner
      = [⟨s, e, v⟩, ⟨s, e, v⟩] from rfl, hded, List.mergeSort_singleton]
  rw [hcl]
  constructor
  · rfl
  · have hfound : binarySearchBy (fun e' => e'.cmpAddrUnwrap k)
        [(⟨s, e, v⟩ : IpAddrEntry A T)] = Except.ok 0 := by
      refine binarySearchBy_found _ _ 0 (by simp) ?_ ?_ ?_
      · exact IpAddrEntry.cmpAddrUnwrap_eq_of
          (IpAddrEntry.cmpAddr_eq_of ⟨hk1, hk2⟩)
      · intro j hj
        exact absurd hj (Nat.not_lt_zero j)
      · intro j hj hjlen
        simp only [List.length_singleton] at hjlen
        omega
    unfold IpAddrMap.search
    rw [IpAddrMap.cleanup_not_dirty rfl, hfound]
    rfl

/-- Witness for C8 at concrete bounds and key. -/
theorem duplicate_collapse_witness :
    ((IpAddrMap.new.insert ⟨0, 2, 7⟩).insert
        (⟨0, 2, 7⟩ : IpAddrEntry ℕ ℕ)).cleanup.len = 1 ∧
    ((((IpAddrMap.new.insert ⟨0, 2, 7⟩).insert
        (⟨0, 2, 7⟩ : IpAddrEntry ℕ ℕ)).cleanup.search 1).1 = some 7) :=
  duplicate_collapse 0 2 7 (by decide) 1 (by decide) (by decide)

/-- Claim C9: the unchecked read-only lookup path (`try_search`, modelled
from the spec because the crate revision defining it is not under `src/`)
invoked on a map with pending unfinalized inserts (`dirty = true`) yields
the distinguished `DirtyMap` error instead of performing the search. -/
theorem trySearch_dirty [LinearOrder A] [Inhabited A] [Inhabited T]
    (m : IpAddrMap A T) (k : A) (hd : m.dirty = true) :
    m.trySearch k = Except.error LookupError.dirtyMap := by
  unfold IpAddrMap.trySearch
  rw [hd]
  rfl

/-- Witness for C9 at a concrete dirty map. -/
theorem trySearch_dirty_witness :
    (⟨[⟨0, 2, 7⟩], true⟩ : IpAddrMap ℕ ℕ).trySearch 1
      = Except.error LookupError.dirtyMap :=
  trySearch_dirty _ 1 rfl

/-- Claim C10: round trip between construction and destruction: for
`start <= end`, `IpAddrEntry::new start end value` returns `Ok` of the entry
whose `unwrap` is exactly `(start, end, value)` and whose accessors
`start()`, `end()`, `value()` return the stored fields. -/
theorem new_unwrap_roundtrip [LinearOrder A] (s e : A) (v : T) (h : s ≤ e) :
    IpAddrEntry.new s e v = Except.ok ⟨s, e, v⟩ ∧
    (IpAddrEntry.mk s e v).unwrap = (s, e, v) ∧
    (IpAddrEntry.mk s e v).start = s ∧
    (IpAddrEntry.mk s e v).«end» = e ∧
    (IpAddrEntry.mk s e v).value = v := by
  refine ⟨?_, rfl, rfl, rfl, rfl⟩
  unfold IpAddrEntry.new
  rw [if_pos h]

/-- Witness for C10 at concrete fields. -/
theorem new_unwrap_roundtrip_witness :
    IpAddrEntry.new 0 2 (7 : ℕ) = Except.ok ⟨0, 2, 7⟩ ∧
    (IpAddrEntry.mk (0 : ℕ) 2 (7 : ℕ)).unwrap = (0, 2, 7) ∧
    (IpAddrEntry.mk (0 : ℕ) 2 (7 : ℕ)).start = 0 ∧
    (IpAddrEntry.mk (0 : ℕ) 2 (7 : ℕ)).«end» = 2 ∧
    (IpAddrEntry.mk (0 : ℕ) 2 (7 : ℕ)).value = 7 :=
  new_unwrap_roundtrip 0 2 7 (by decide)

/-- Claim C3 (evaluation at the failing input): `cleanup` runs its
adjacent-only dedup BEFORE the sort (src/src/lib.rs, lines 110-111), so equal
entries that were inserted non-adjacently survive finalization. On the
insertion sequence `[(0,0,7), (0,0,8), (0,0,7)]` the cleaned map is not
dirty, yet its entry sequence still contains two structurally equal
entries. -/
theorem cleanup_leaves_nonadjacent_duplicates :
    (IpAddrMap.cleanup ⟨[⟨0, 0, 7⟩, ⟨0, 0, 8⟩, ⟨0, 0, 7⟩], true⟩
        : IpAddrMap ℕ ℕ).dirty = false ∧
    ¬ (IpAddrMap.cleanup ⟨[⟨0, 0, 7⟩, ⟨0, 0, 8⟩, ⟨0, 0, 7⟩], true⟩
        : IpAddrMap ℕ ℕ).inner.Pairwise (fun a b => a ≠ b) := by
  have hcl : (IpAddrMap.cleanup ⟨[⟨0, 0, 7⟩, ⟨0, 0, 8⟩, ⟨0, 0, 7⟩], true⟩
      : IpAddrMap ℕ ℕ) = ⟨[⟨0, 0, 7⟩, ⟨0, 0, 8⟩, ⟨0, 0, 7⟩], false⟩ := by
    unfold IpAddrMap.cleanup
    rw [if_neg (by decide)]
    have hded : dedupByEq [(⟨0, 0, 7⟩ : IpAddrEntry ℕ ℕ), ⟨0, 0, 8⟩, ⟨0, 0, 7⟩]
        = [⟨0, 0, 7⟩, ⟨0, 0, 8⟩, ⟨0, 0, 7⟩] := by decide
    rw [show (⟨[⟨0, 0, 7⟩, ⟨0, 0, 8⟩, ⟨0, 0, 7⟩], true⟩
        : IpAddrMap ℕ ℕ).inner = [⟨0, 0, 7⟩, ⟨0, 0, 8⟩, ⟨0, 0, 7⟩] from rfl,
      hded, List.mergeSort_of_sorted (by decide)]
  rw [hcl]
  exact ⟨rfl, by decide⟩
